import Mathlib

/-!
# Verification of the rune numeric tower and text constructors

A shallow embedding of `src/arith.rs` and `src/character.rs` of the rune
runtime.  Machine floats (`f64`) are modelled exactly: a finite binary64
value is a dyadic rational `m * 2^e` held as a pair of integers, every
float operation first computes the exact dyadic result and then applies
the IEEE-754 round-to-nearest-even rounding step `fdRound`, and the
non-finite values (two infinities and NaN) are explicit constructors.
Machine integers (`i64`) are embedded as `ℤ`; an operation that panics in
Rust (division by zero, `i64::MIN / -1` overflow) is embedded as an
`Option`-valued function returning `none` at the panicking inputs.
Arbitrary-precision integers (`num_bigint::BigInt`) are embedded as `ℤ`,
with the library conversions `to_f64`, `from_f64` and `to_i64` modelled
after the num-bigint implementations the source calls into.
-/

set_option maxRecDepth 100000

namespace Rune

/-! ## Bit length

`bitLen n` is the number of binary digits of `n` (0 for 0), implemented by
structural recursion on a fuel argument so that the kernel can evaluate it
on literals.  It plays the role of `BigUint::bits` and of the `fls`
(find-last-set) helper used by num-bigint's float conversion. -/

def bitLenAux : ℕ → ℕ → ℕ
  | 0, _ => 0
  | fuel + 1, n => if n = 0 then 0 else bitLenAux fuel (n / 2) + 1

def bitLen (n : ℕ) : ℕ := bitLenAux n n

lemma bitLenAux_zero : ∀ fuel : ℕ, bitLenAux fuel 0 = 0
  | 0 => rfl
  | _ + 1 => by rw [bitLenAux]; simp

lemma bitLenAux_spec : ∀ (fuel n : ℕ), n ≤ fuel → n ≠ 0 →
    2 ^ (bitLenAux fuel n - 1) ≤ n ∧ n < 2 ^ bitLenAux fuel n := by
  intro fuel
  induction fuel with
  | zero => intro n hle hne; omega
  | succ fuel ih =>
    intro n hle hne
    rw [bitLenAux, if_neg hne]
    by_cases h2 : n / 2 = 0
    · have hn1 : n = 1 := by omega
      subst hn1
      rw [h2, bitLenAux_zero]
      omega
    · have hrec := ih (n / 2) (by omega) h2
      have hpos : 1 ≤ bitLenAux fuel (n / 2) := by
        by_contra h
        have h0 : bitLenAux fuel (n / 2) = 0 := by omega
        rw [h0] at hrec
        omega
      have h1 : 2 ^ (bitLenAux fuel (n / 2) - 1) ≤ n / 2 := hrec.1
      have h2' : n / 2 < 2 ^ bitLenAux fuel (n / 2) := hrec.2
      have hsplit : 2 ^ bitLenAux fuel (n / 2) = 2 * 2 ^ (bitLenAux fuel (n / 2) - 1) := by
        conv_lhs => rw [show bitLenAux fuel (n / 2) = bitLenAux fuel (n / 2) - 1 + 1 by omega]
        rw [pow_succ]
        ring
      have hup : 2 ^ (bitLenAux fuel (n / 2) + 1) = 2 * 2 ^ bitLenAux fuel (n / 2) := by
        rw [pow_succ]; ring
      constructor
      · rw [Nat.add_sub_cancel, hsplit]
        omega
      · rw [hup]
        omega

lemma bitLen_spec (n : ℕ) (hne : n ≠ 0) :
    2 ^ (bitLen n - 1) ≤ n ∧ n < 2 ^ bitLen n :=
  bitLenAux_spec n n le_rfl hne

lemma bitLen_pos (n : ℕ) (hne : n ≠ 0) : 1 ≤ bitLen n := by
  by_contra h
  have h0 : bitLen n = 0 := by omega
  have := (bitLen_spec n hne).2
  rw [h0] at this
  omega

lemma bitLen_eq_of (n k : ℕ) (hk : 1 ≤ k) (h1 : 2 ^ (k - 1) ≤ n) (h2 : n < 2 ^ k) :
    bitLen n = k := by
  have hne : n ≠ 0 := by
    have : (1 : ℕ) ≤ 2 ^ (k - 1) := Nat.one_le_two_pow
    omega
  have hs := bitLen_spec n hne
  have hp := bitLen_pos n hne
  by_contra hne2
  rcases Nat.lt_or_ge (bitLen n) k with hlt | hge
  · have : 2 ^ bitLen n ≤ 2 ^ (k - 1) := Nat.pow_le_pow_right (by omega) (by omega)
    omega
  · have hgt : k < bitLen n := by omega
    have : 2 ^ k ≤ 2 ^ (bitLen n - 1) := Nat.pow_le_pow_right (by omega) (by omega)
    omega

lemma bitLen_le_of_lt (n k : ℕ) (h : n < 2 ^ k) : bitLen n ≤ k := by
  by_cases hne : n = 0
  · subst hne
    rw [bitLen, bitLenAux_zero]
    omega
  · by_contra hgt
    have : 2 ^ k ≤ 2 ^ (bitLen n - 1) := Nat.pow_le_pow_right (by omega) (by omega)
    have := (bitLen_spec n hne).1
    omega

lemma le_of_bitLen_le (n k : ℕ) (h : bitLen n ≤ k) : n < 2 ^ k := by
  by_cases hne : n = 0
  · subst hne; exact Nat.pos_pow_of_pos k (by omega)
  · have := (bitLen_spec n hne).2
    calc n < 2 ^ bitLen n := this
    _ ≤ 2 ^ k := Nat.pow_le_pow_right (by omega) h

/-! ## The binary64 (`f64`) model

A finite double is a dyadic rational `m * 2^e`.  The representation is not
canonical; all comparisons go through exponent alignment, which matches
IEEE-754 equality and ordering on the represented real values (the claims
under study never distinguish `-0.0` from `0.0`, so the two zeros are
collapsed).  `inf true` is negative infinity, `inf false` positive. -/

inductive F64 where
  | finite (m : ℤ) (e : ℤ)
  | inf (neg : Bool)
  | nan
  deriving DecidableEq

/-- Compare the values `m₁ * 2^e₁` and `m₂ * 2^e₂` by aligning exponents. -/
def dyCmp (m₁ e₁ m₂ e₂ : ℤ) : Ordering :=
  if e₂ ≤ e₁ then compare (m₁ * 2 ^ (e₁ - e₂).toNat) m₂
  else compare m₁ (m₂ * 2 ^ (e₂ - e₁).toNat)

/-- IEEE-754 `partial_cmp` on doubles: `none` whenever NaN is involved. -/
def F64.pcmp : F64 → F64 → Option Ordering
  | .nan, _ => none
  | .finite _ _, .nan => none
  | .inf _, .nan => none
  | .finite m₁ e₁, .finite m₂ e₂ => some (dyCmp m₁ e₁ m₂ e₂)
  | .finite _ _, .inf t => some (if t then .gt else .lt)
  | .inf s, .finite _ _ => some (if s then .lt else .gt)
  | .inf s, .inf t => some (if s = t then .eq else if s then .lt else .gt)

/-- IEEE-754 `==` on doubles (false whenever NaN is involved). -/
def F64.ieeeEq (a b : F64) : Bool := a.pcmp b == some .eq

/-- IEEE-754 `<=` on doubles (false whenever NaN is involved). -/
def F64.leB (a b : F64) : Bool :=
  match a.pcmp b with
  | some .lt => true
  | some .eq => true
  | _ => false

/-- IEEE-754 `<` on doubles. -/
def F64.ltB (a b : F64) : Bool := a.pcmp b == some .lt

def F64.isFinite : F64 → Bool
  | .finite _ _ => true
  | _ => false

/-- `f64::abs`. -/
def F64.abs : F64 → F64
  | .finite m e => .finite |m| e
  | .inf _ => .inf false
  | .nan => .nan

/-- Round the real number `m * 2^e` to the nearest binary64 value, ties to
even, overflowing to infinity and respecting the subnormal granularity
`2^-1074`.  Every finite float operation is this rounding step applied to
the exact dyadic result, which is precisely the IEEE-754 semantics of the
corresponding `f64` operation. -/
def fdRound (m e : ℤ) : F64 :=
  if m = 0 then .finite 0 0
  else
    let n := m.natAbs
    let bl : ℤ := bitLen n
    let E : ℤ := bl - 1 + e
    if 1023 < E then .inf (m < 0)
    else
      let p : ℤ := if E - 52 < -1074 then -1074 else E - 52
      let s : ℤ := p - e
      if s ≤ 0 then .finite m e
      else
        let sn := s.toNat
        let q := n / 2 ^ sn
        let r := n % 2 ^ sn
        let half := 2 ^ (sn - 1)
        let q₁ := if r < half then q else if half < r then q + 1
          else if q % 2 = 0 then q else q + 1
        if 2 ^ 53 ≤ q₁ ∧ E = 1023 then .inf (m < 0)
        else .finite (if m < 0 then -(q₁ : ℤ) else (q₁ : ℤ)) p

/-- Exact sum of two dyadic values (before rounding). -/
def dyAdd (m₁ e₁ m₂ e₂ : ℤ) : ℤ × ℤ :=
  if e₂ ≤ e₁ then (m₁ * 2 ^ (e₁ - e₂).toNat + m₂, e₂)
  else (m₁ + m₂ * 2 ^ (e₂ - e₁).toNat, e₁)

/-- `f64` addition: exact dyadic sum, then correct rounding; IEEE special
cases for infinities and NaN. -/
def F64.add : F64 → F64 → F64
  | .nan, _ => .nan
  | .finite _ _, .nan => .nan
  | .inf _, .nan => .nan
  | .finite m₁ e₁, .finite m₂ e₂ => let s := dyAdd m₁ e₁ m₂ e₂; fdRound s.1 s.2
  | .inf s, .inf t => if s = t then .inf s else .nan
  | .inf s, .finite _ _ => .inf s
  | .finite _ _, .inf t => .inf t

/-- `f64` subtraction: exact dyadic difference, then correct rounding. -/
def F64.sub : F64 → F64 → F64
  | .nan, _ => .nan
  | .finite _ _, .nan => .nan
  | .inf _, .nan => .nan
  | .finite m₁ e₁, .finite m₂ e₂ => let s := dyAdd m₁ e₁ (-m₂) e₂; fdRound s.1 s.2
  | .inf s, .inf t => if s = t then .nan else .inf s
  | .inf s, .finite _ _ => .inf s
  | .finite _ _, .inf t => .inf !t

/-- Sign predicate of a float (true for negative values and `-inf`). -/
def F64.isNeg : F64 → Bool
  | .finite m _ => m < 0
  | .inf s => s
  | .nan => false

/-- `f64` multiplication: exact dyadic product, then correct rounding. -/
def F64.mul : F64 → F64 → F64
  | .nan, _ => .nan
  | .finite _ _, .nan => .nan
  | .inf _, .nan => .nan
  | .finite m₁ e₁, .finite m₂ e₂ => fdRound (m₁ * m₂) (e₁ + e₂)
  | .inf s, .inf t => .inf (s ≠ t)
  | .inf s, .finite m _ => if m = 0 then .nan else .inf (s ≠ (m < 0 : Bool))
  | .finite m _, .inf t => if m = 0 then .nan else .inf (t ≠ (m < 0 : Bool))

/-- Compare `p` with `q * 2^k` for natural `p q` and integer `k`. -/
def cmpShift (p q : ℕ) (k : ℤ) : Ordering :=
  if 0 ≤ k then compare p (q * 2 ^ k.toNat) else compare (p * 2 ^ (-k).toNat) q

/-- Correctly rounded quotient `(±p / ±q) * 2^e` for `p q ≠ 0`: the exact
real quotient is located on the binary64 grid by integer division with a
remainder acting as the sticky information for the half-even tie rule. -/
def fdDivRound (neg : Bool) (p q : ℕ) (e : ℤ) : F64 :=
  let d0 : ℤ := (bitLen p : ℤ) - bitLen q + e
  let E : ℤ := if cmpShift p q (d0 - e) = .lt then d0 - 1 else d0
  if 1023 < E then .inf neg
  else
    let pos : ℤ := if E - 52 < -1074 then -1074 else E - 52
    let k : ℤ := e - pos
    let N : ℕ := if 0 ≤ k then p * 2 ^ k.toNat else p
    let D : ℕ := if 0 ≤ k then q else q * 2 ^ (-k).toNat
    let Q := N / D
    let R := N % D
    let q₁ := if 2 * R < D then Q else if D < 2 * R then Q + 1
      else if Q % 2 = 0 then Q else Q + 1
    if 2 ^ 53 ≤ q₁ ∧ E = 1023 then .inf neg
    else .finite (if neg then -(q₁ : ℤ) else (q₁ : ℤ)) pos

/-- `f64` division with the IEEE special cases (our single zero is treated
as `+0.0`, so `x / 0.0` is a signed infinity and `0.0 / 0.0` is NaN). -/
def F64.div : F64 → F64 → F64
  | .nan, _ => .nan
  | .finite _ _, .nan => .nan
  | .inf _, .nan => .nan
  | .inf _, .inf _ => .nan
  | .inf s, .finite m _ => .inf (s ≠ (m < 0 : Bool))
  | .finite _ _, .inf _ => .finite 0 0
  | .finite m₁ e₁, .finite m₂ e₂ =>
    if m₂ = 0 then (if m₁ = 0 then .nan else .inf (m₁ < 0))
    else if m₁ = 0 then .finite 0 0
    else fdDivRound ((m₁ < 0) ≠ (m₂ < 0 : Bool)) m₁.natAbs m₂.natAbs (e₁ - e₂)

/-- `f64` remainder (Rust `%`, i.e. `fmod`): `a - trunc(a/b) * b`, which is
always exactly representable, so no rounding step is needed. -/
def F64.rem : F64 → F64 → F64
  | .nan, _ => .nan
  | .finite _ _, .nan => .nan
  | .inf _, .nan => .nan
  | .inf _, _ => .nan
  | .finite m e, .inf _ => .finite m e
  | .finite m₁ e₁, .finite m₂ e₂ =>
    if m₂ = 0 then .nan
    else
      let t := if e₂ ≤ e₁ then Int.tdiv (m₁ * 2 ^ (e₁ - e₂).toNat) m₂
        else Int.tdiv m₁ (m₂ * 2 ^ (e₂ - e₁).toNat)
      let s := dyAdd m₁ e₁ (-(t * m₂)) e₂
      .finite s.1 s.2

/-- `i64 as f64` conversion: round to nearest even (exact for every
integer of magnitude below `2^53`). -/
def i64ToF64 (n : ℤ) : F64 := fdRound n 0

/-- `f64 as i64` cast: truncate toward zero, saturating at the `i64`
bounds; NaN casts to 0. -/
def f64ToI64 : F64 → ℤ
  | .nan => 0
  | .inf neg => if neg then -(2 ^ 63) else 2 ^ 63 - 1
  | .finite m e =>
    let t := if 0 ≤ e then m * 2 ^ e.toNat else Int.tdiv m (2 ^ (-e).toNat)
    if t < -(2 ^ 63) then -(2 ^ 63) else if 2 ^ 63 - 1 < t then 2 ^ 63 - 1 else t

/-! ## ULP distance (the float_cmp crate)

`float_cmp` measures the distance between two doubles on the monotone
integer scale obtained from the IEEE-754 bit encoding (sign-magnitude bits
mapped so that the order of the scale matches the order of the values).
`shz` shifts a natural by a signed amount; `dyBits` computes the bit
encoding of the positive float `m * 2^e` (mantissa and biased exponent
packed exactly as in the binary64 layout, assuming the value is
representable, which every float constructed by the model's rounding step
is). -/

def shz (n : ℕ) (k : ℤ) : ℤ :=
  if 0 ≤ k then (n * 2 ^ k.toNat : ℕ) else (n / 2 ^ (-k).toNat : ℕ)

/-- Binary64 bit encoding of the positive representable value `m * 2^e`
(`m > 0`): subnormals are their mantissa field, normals pack the biased
exponent above the 52 mantissa bits. -/
def dyBits (m e : ℤ) : ℤ :=
  let n := m.natAbs
  let bl : ℤ := bitLen n
  let E : ℤ := bl - 1 + e
  if E < -1022 then shz n (e + 1074)
  else (E + 1023) * 2 ^ 52 + (shz n (53 - bl) - 2 ^ 52)

/-- The float_cmp monotone integer scale: signed bit encoding.  The NaN
value is the standard quiet NaN the Rust operations produce
(`0x7FF8_0000_0000_0000`). -/
def F64.ord : F64 → ℤ
  | .finite m e => if m = 0 then 0 else if 0 < m then dyBits m e else -dyBits (-m) e
  | .inf s => if s then -(2047 * 2 ^ 52) else 2047 * 2 ^ 52
  | .nan => 2047 * 2 ^ 52 + 2 ^ 51

/-- float_cmp `Ulps::ulps` for `f64`: difference on the monotone scale. -/
def F64.ulps (a b : F64) : ℤ := a.ord - b.ord

/-- `f64::EPSILON` = `2^-52`. -/
def f64EPSILON : F64 := .finite 1 (-52)

/-- float_cmp `approx_eq` with margin `(f64::EPSILON, 2)`: bitwise/value
equality, or absolute difference at most `EPSILON`, or at most 2 ULPs
apart. -/
def F64.approx_eq (a b : F64) : Bool :=
  a.ieeeEq b || (F64.abs (F64.sub a b)).leB f64EPSILON || decide (|F64.ulps a b| ≤ 2)

/-! ## num-bigint conversions

The source calls `BigInt::to_f64`, `BigInt::from_f64` and `BigInt::to_i64`
from the num-bigint crate.  `to_f64` takes the top (at most) 64 bits of
the magnitude, converts that value to `f64` (round to nearest), and scales
by a power of two; it returns `Some` for every input, saturating to a
signed infinity when the magnitude exceeds the finite range — its `None`
branch is unreachable. -/

/-- `BigInt::to_f64` (total value part). -/
def bigToF64 (a : ℤ) : F64 :=
  if a = 0 then .finite 0 0
  else
    let n := a.natAbs
    let bits := bitLen n
    let mantissa := n / 2 ^ (bits - 64)
    let exponent : ℤ := (bits : ℤ) - if bits ≤ 64 then (bits : ℤ) else 64
    if 1024 < exponent then .inf (a < 0)
    else fdRound (if a < 0 then -(mantissa : ℤ) else (mantissa : ℤ)) exponent

/-- `BigInt::to_f64` as the `Option`-returning library call: it always
returns `some` (num-bigint saturates instead of failing). -/
def to_f64 (a : ℤ) : Option F64 := some (bigToF64 a)

/-- `BigInt::from_f64`: truncates the float toward zero; `None` exactly on
the non-finite inputs. -/
def from_f64 : F64 → Option ℤ
  | .finite m e => some (if 0 ≤ e then m * 2 ^ e.toNat else Int.tdiv m (2 ^ (-e).toNat))
  | .inf _ => none
  | .nan => none

/-- `BigInt::to_i64`: `Some` exactly when the value fits in `i64`. -/
def to_i64 (a : ℤ) : Option ℤ :=
  if -(2 ^ 63) ≤ a ∧ a < 2 ^ 63 then some a else none

/-! ## The numeric tower (`NumberValue`)

`Int` carries the `i64` payload (embedded in `ℤ`; tagged fixnums occupy
`[MIN_FIXNUM, MAX_FIXNUM]`), `Float` a double, `Big` a `BigInt`.  The
functions below model the `Number::val` output directly, i.e. they take
the already-extracted `NumberValue` of each tagged argument. -/

inductive NumberValue where
  | Int (x : ℤ)
  | Float (x : F64)
  | Big (x : ℤ)
  deriving DecidableEq

/-- `MAX_FIXNUM = i64::MAX >> 8` (arithmetic shift). -/
def MAX_FIXNUM : ℤ := (2 ^ 63 - 1) >>> 8

/-- `MIN_FIXNUM = i64::MIN >> 8` (arithmetic shift). -/
def MIN_FIXNUM : ℤ := (-(2 ^ 63)) >>> 8

/-- `NumberValue::coerce_integer`: narrow a `Float` in the fixnum window
to `Int` via the `as i64` cast, send other floats to `Big` through
`BigInt::from_f64` (defaulting to zero), narrow a fixnum-sized `Big` to
`Int`, and pass `Int` through. -/
def coerce_integer : NumberValue → NumberValue
  | .Float x =>
    if x.isFinite && x.leB (i64ToF64 MAX_FIXNUM) && (i64ToF64 MIN_FIXNUM).leB x then
      .Int (f64ToI64 x)
    else .Big ((from_f64 x).getD 0)
  | .Big x =>
    (((to_i64 x).filter fun n => decide (MIN_FIXNUM ≤ n) && decide (n ≤ MAX_FIXNUM)).map
      NumberValue.Int).getD (.Big x)
  | other => other

/-! ## The dispatcher `arith`

The integer and bignum operator arguments are `Option`-valued so that a
Rust panic inside them (zero divisor, `i64` overflow) is observable as
`none`; the `.map` on `to_f64` mirrors the `.unwrap()` in the source (a
`none` there would be the panic the TODO comments worry about). -/

def arith (cur next : NumberValue) (int_fn : ℤ → ℤ → Option ℤ)
    (float_fn : F64 → F64 → F64) (big_fn : ℤ → ℤ → Option ℤ) : Option NumberValue :=
  match cur, next with
  | .Int l, .Int r => (int_fn l r).map .Int
  | .Int l, .Float r => some (.Float (float_fn (i64ToF64 l) r))
  | .Float l, .Int r => some (.Float (float_fn l (i64ToF64 r)))
  | .Float l, .Float r => some (.Float (float_fn l r))
  | .Int l, .Big r => (big_fn l r).map .Big
  | .Big l, .Int r => (big_fn l r).map .Big
  | .Big l, .Big r => (big_fn l r).map .Big
  | .Float l, .Big r => (to_f64 r).map fun f => .Float (float_fn l f)
  | .Big l, .Float r => (to_f64 l).map fun f => .Float (float_fn f r)

/-- Rust `i64` division: truncated; panics (`none`) on a zero divisor and
on the `i64::MIN / -1` overflow. -/
def i64Div (l r : ℤ) : Option ℤ :=
  if r = 0 then none else if l = -(2 ^ 63) ∧ r = -1 then none else some (Int.tdiv l r)

/-- Rust `i64` remainder: truncated; panics (`none`) on a zero divisor and
on the `i64::MIN % -1` overflow. -/
def i64Rem (l r : ℤ) : Option ℤ :=
  if r = 0 then none else if l = -(2 ^ 63) ∧ r = -1 then none else some (Int.tmod l r)

/-- `BigInt` division (truncated, like Rust's); panics on a zero divisor. -/
def bigDiv (l r : ℤ) : Option ℤ := if r = 0 then none else some (Int.tdiv l r)

/-- `BigInt` remainder (truncated); panics on a zero divisor. -/
def bigRem (l r : ℤ) : Option ℤ := if r = 0 then none else some (Int.tmod l r)

/-- `impl Div for NumberValue`. -/
def nvDiv (a b : NumberValue) : Option NumberValue := arith a b i64Div F64.div bigDiv

/-- `impl Rem for NumberValue`. -/
def nvRem (a b : NumberValue) : Option NumberValue := arith a b i64Rem F64.rem bigRem

/-! ## `impl PartialOrd for NumberValue` and the comparison `defun`s -/

def nvPartialCmp : NumberValue → NumberValue → Option Ordering
  | .Int l, .Int r => some (compare l r)
  | .Int l, .Float r => (i64ToF64 l).pcmp r
  | .Int l, .Big r => some (compare l r)
  | .Float l, .Int r => l.pcmp (i64ToF64 r)
  | .Float l, .Float r => l.pcmp r
  | .Float l, .Big r => l.pcmp ((to_f64 r).getD .nan)
  | .Big l, .Int r => some (compare l r)
  | .Big l, .Float r => (to_f64 l).bind fun n => n.pcmp r
  | .Big l, .Big r => some (compare l r)

/-- `PartialOrd::lt`. -/
def NumberValue.ltB (a b : NumberValue) : Bool := nvPartialCmp a b == some .lt

/-- `PartialOrd::le`. -/
def NumberValue.leB (a b : NumberValue) : Bool :=
  match nvPartialCmp a b with
  | some .lt => true
  | some .eq => true
  | _ => false

/-- `PartialOrd::gt`. -/
def NumberValue.gtB (a b : NumberValue) : Bool := nvPartialCmp a b == some .gt

/-- `PartialOrd::ge`. -/
def NumberValue.geB (a b : NumberValue) : Bool :=
  match nvPartialCmp a b with
  | some .gt => true
  | some .eq => true
  | _ => false

/-- The comparison-chain helper `cmp`: a `try_fold` whose accumulator is
reset to the placeholder `Int(0)` after every successful comparison (the
behaviour under study in the chain-comparison claim). -/
def cmp (number : NumberValue) (numbers : List NumberValue)
    (c : NumberValue → NumberValue → Bool) : Bool :=
  (numbers.foldlM (fun acc x => if c acc x then some (NumberValue.Int 0) else none)
    number).isSome

/-- The `<` defun. -/
def less_than (number : NumberValue) (numbers : List NumberValue) : Bool :=
  cmp number numbers NumberValue.ltB

/-- The `<=` defun. -/
def less_than_or_eq (number : NumberValue) (numbers : List NumberValue) : Bool :=
  cmp number numbers NumberValue.leB

/-- The `>` defun. -/
def greater_than (number : NumberValue) (numbers : List NumberValue) : Bool :=
  cmp number numbers NumberValue.gtB

/-- The `>=` defun. -/
def greater_than_or_eq (number : NumberValue) (numbers : List NumberValue) : Bool :=
  cmp number numbers NumberValue.geB

/-! ## Division, modulo, remainder, max, min `defun`s -/

/-- The `/` defun: left fold of `NumberValue` division over the divisors
(a `none` anywhere models the Rust panic propagating out). -/
def div (number : NumberValue) (divisors : List NumberValue) : Option NumberValue :=
  divisors.foldlM nvDiv number

/-- The `mod` defun. -/
def modulo (x y : NumberValue) : Option NumberValue := nvRem x y

/-- The `%` defun (defined over raw `i64` arguments only). -/
def remainder (x y : ℤ) : Option ℤ := i64Rem x y

/-- `max_val`: keep the running extreme only when strictly greater. -/
def max_val (x y : NumberValue) : NumberValue := if x.gtB y then x else y

/-- `min_val`: keep the running extreme only when strictly smaller. -/
def min_val (x y : NumberValue) : NumberValue := if x.ltB y then x else y

/-- The `max` defun: left fold of `max_val`. -/
def max (number : NumberValue) (numbers : List NumberValue) : NumberValue :=
  numbers.foldl max_val number

/-- The `min` defun: left fold of `min_val`. -/
def min (number : NumberValue) (numbers : List NumberValue) : NumberValue :=
  numbers.foldl min_val number

/-! ## The `PartialEq` implementations on `Number` -/

/-- `impl PartialEq<i64> for Number`. -/
def num_eq_i64 : NumberValue → ℤ → Bool
  | .Int n, k => n == k
  | .Float x, k => x.ieeeEq (i64ToF64 k)
  | .Big n, k => n == k

/-- `impl PartialEq<f64> for Number`. -/
def num_eq_f64 : NumberValue → F64 → Bool
  | .Int n, y => (i64ToF64 n).ieeeEq y
  | .Float x, y => x.approx_eq y
  | .Big n, y =>
    match to_f64 n with
    | some f => f.approx_eq y
    | none => false

/-- `impl PartialEq<BigInt> for Number`. -/
def num_eq_big : NumberValue → ℤ → Bool
  | .Int n, o => n == o
  | .Float x, o =>
    match to_f64 o with
    | some f => f.approx_eq x
    | none => false
  | .Big n, o => n == o

/-! ## `character.rs` -/

/-- A Unicode scalar value: in `[0, 0x10FFFF]` and not a surrogate. -/
def isScalar (x : ℤ) : Bool :=
  decide (0 ≤ x) && decide (x ≤ 0x10FFFF) && !(decide (0xD800 ≤ x) && decide (x ≤ 0xDFFF))

/-- Modelled from the spec: `int_to_char` lives in the object core, which
is not among the provided sources.  Per the spec it converts an integer to
a validated Unicode scalar value, failing on any integer that is not one;
the error carries the offending integer.  A produced character is its
code point. -/
def int_to_char (x : ℤ) : Except ℤ ℕ :=
  if isScalar x then .ok x.toNat else .error x

/-- The `string` defun: convert every integer through `int_to_char` and
collect; the `Except` collect stops at the first failure, so no partial
text exists on error. -/
def string (characters : List ℤ) : Except ℤ (List ℕ) :=
  characters.mapM int_to_char

/-- `u8::try_from` on an `i64`: succeeds exactly on `[0, 255]`. -/
def u8_try_from (x : ℤ) : Except ℤ ℕ :=
  if 0 ≤ x ∧ x ≤ 255 then .ok x.toNat else .error x

/-- The `make-unibyte-string` helper `unibyte_string`: convert every
integer through `u8::try_from` and collect; stops at the first failure. -/
def unibyte_string (bytes : List ℤ) : Except ℤ (List ℕ) :=
  bytes.mapM u8_try_from

/-! ## Spec-side definitions

The following two definitions transcribe the specification's words (not
the source) and exist only to be compared against the source embedding. -/

/-- Variant tags of the numeric tower. -/
inductive NKind where
  | int
  | float
  | big
  deriving DecidableEq

def NumberValue.kind : NumberValue → NKind
  | .Int _ => .int
  | .Float _ => .float
  | .Big _ => .big

/-- The promotion matrix of spec §4.1: `Int`–`Int` stays `Int`, any `Big`
pairing without a `Float` gives `Big`, any pairing involving a `Float`
gives `Float`. -/
def promoteKind : NKind → NKind → NKind
  | .int, .int => .int
  | .int, .big => .big
  | .big, .int => .big
  | .big, .big => .big
  | _, _ => .float

/-- The adjacent-pairwise comparison chain as the spec words it: each
element is compared against the true running value, the accumulator
becoming the element just compared (`acc = x` after every successful
comparison). -/
def chainPairwise (c : NumberValue → NumberValue → Bool) (number : NumberValue)
    (numbers : List NumberValue) : Bool :=
  (numbers.foldlM (fun acc x => if c acc x then some x else none) number).isSome

/-! ## General lemmas -/

lemma neg_tmod (a b : ℤ) : (-a).tmod b = -(a.tmod b) := by
  rw [Int.tmod_def, Int.tmod_def, Int.neg_tdiv]
  ring

lemma tmod_nonpos (a b : ℤ) (h : a ≤ 0) : a.tmod b ≤ 0 := by
  have h2 : 0 ≤ (-a).tmod b := Int.tmod_nonneg b (by omega)
  have h3 : (-a).tmod b = -(a.tmod b) := neg_tmod a b
  omega

lemma abs_tmod_lt (a b : ℤ) (h : b ≠ 0) : |a.tmod b| < |b| := by
  rcases le_or_lt 0 b with hb | hb
  · have hbpos : 0 < b := by omega
    rcases le_or_lt 0 a with ha | ha
    · have h1 := Int.tmod_nonneg b ha
      have h2 := Int.tmod_lt_of_pos a hbpos
      rw [abs_of_nonneg h1, abs_of_pos hbpos]
      exact h2
    · have h1 := Int.tmod_nonneg b (show (0:ℤ) ≤ -a by omega)
      have h2 := Int.tmod_lt_of_pos (-a) hbpos
      have h3 : (-a).tmod b = -(a.tmod b) := neg_tmod a b
      rw [abs_of_pos hbpos]
      rw [abs_of_nonpos (by omega : a.tmod b ≤ 0)]
      omega
  · have h3 : a.tmod b = a.tmod (-b) := (Int.tmod_neg a b).symm
    have hbpos : 0 < -b := by omega
    rcases le_or_lt 0 a with ha | ha
    · have h1 := Int.tmod_nonneg (-b) ha
      have h2 := Int.tmod_lt_of_pos a hbpos
      rw [abs_of_neg hb, h3, abs_of_nonneg h1]
      exact h2
    · have h1 := Int.tmod_nonneg (-b) (show (0:ℤ) ≤ -a by omega)
      have h2 := Int.tmod_lt_of_pos (-a) hbpos
      have h4 : (-a).tmod (-b) = -(a.tmod (-b)) := neg_tmod a (-b)
      rw [abs_of_neg hb, h3, abs_of_nonpos (by omega : a.tmod (-b) ≤ 0)]
      omega

/-- Rounding is the identity on integers of magnitude below `2^53` (every
such integer is exactly representable). -/
lemma fdRound_small (m : ℤ) (h : m.natAbs < 2 ^ 53) : fdRound m 0 = .finite m 0 := by
  by_cases hz : m = 0
  · subst hz; rfl
  · have hne : m.natAbs ≠ 0 := by
      intro h0
      exact hz (Int.natAbs_eq_zero.mp h0)
    have hbl : bitLen m.natAbs ≤ 53 := bitLen_le_of_lt _ _ h
    have hbl1 : 1 ≤ bitLen m.natAbs := bitLen_pos _ hne
    rw [fdRound]
    rw [if_neg hz]
    have hE : ((bitLen m.natAbs : ℤ) - 1 + 0) ≤ 1023 := by omega
    rw [if_neg (by omega)]
    have hP : ¬((bitLen m.natAbs : ℤ) - 1 + 0 - 52 < -1074) := by omega
    rw [if_neg hP]
    rw [if_pos (by omega)]

/-- `i64 as f64` is exact below `2^53`. -/
lemma i64ToF64_small (k : ℤ) (h : k.natAbs < 2 ^ 53) : i64ToF64 k = .finite k 0 :=
  fdRound_small k h

/-- `BigInt::to_f64` saturates to a signed infinity whenever the magnitude
is at least `2^1024` (i.e. not representable as a finite double). -/
lemma bigToF64_sat (a : ℤ) (h : 2 ^ 1024 ≤ a.natAbs) :
    bigToF64 a = .inf (decide (a < 0)) := by
  have hz : a ≠ 0 := by
    intro h0
    rw [h0] at h
    simp at h
  have hne : a.natAbs ≠ 0 := fun h0 => hz (Int.natAbs_eq_zero.mp h0)
  have hbits : 1025 ≤ bitLen a.natAbs := by
    by_contra hlt
    have := le_of_bitLen_le a.natAbs 1024 (by omega)
    omega
  rw [bigToF64, if_neg hz]
  have h64 : ¬(bitLen a.natAbs ≤ 64) := by omega
  simp only [h64, if_false]
  by_cases hbig : 1024 < (bitLen a.natAbs : ℤ) - 64
  · rw [if_pos hbig]
  · rw [if_neg hbig]
    -- mantissa is the top 64 bits, so its bit length is exactly 64 and the
    -- rounding exponent lands beyond the largest finite binade
    set n := a.natAbs with hn
    set bits := bitLen n with hbdef
    have hlow : 2 ^ (bits - 1) ≤ n := (bitLen_spec n hne).1
    have hhigh : n < 2 ^ bits := (bitLen_spec n hne).2
    have hbge : 64 ≤ bits := by omega
    have hmlow : 2 ^ 63 ≤ n / 2 ^ (bits - 64) := by
      rw [Nat.le_div_iff_mul_le (Nat.pos_pow_of_pos _ (by omega))]
      calc 2 ^ 63 * 2 ^ (bits - 64) = 2 ^ (63 + (bits - 64)) := (pow_add 2 63 (bits - 64)).symm
      _ = 2 ^ (bits - 1) := by congr 1; omega
      _ ≤ n := hlow
    have hmhigh : n / 2 ^ (bits - 64) < 2 ^ 64 := by
      rw [Nat.div_lt_iff_lt_mul (Nat.pos_pow_of_pos _ (by omega))]
      calc n < 2 ^ bits := hhigh
      _ = 2 ^ 64 * 2 ^ (bits - 64) := by rw [← pow_add]; congr 1; omega
    set mant := n / 2 ^ (bits - 64) with hmant
    have hmne : (if a < 0 then -(mant : ℤ) else (mant : ℤ)) ≠ 0 := by
      have : (0:ℤ) < (mant : ℤ) := by positivity
      split <;> omega
    have habs : (if a < 0 then -(mant : ℤ) else (mant : ℤ)).natAbs = mant := by
      split <;> simp
    have hblm : bitLen mant = 64 :=
      bitLen_eq_of mant 64 (by omega) (by simpa using hmlow) hmhigh
    rw [fdRound, if_neg hmne]
    rw [if_pos]
    · congr 1
      have : (0:ℤ) < (mant : ℤ) := by positivity
      rcases lt_trichotomy a 0 with hneg | h0 | hpos
      · simp only [if_pos hneg]
        simp [hneg]
        omega
      · exact absurd h0 hz
      · simp only [if_neg (by omega : ¬(a < 0))]
        simp [hpos]
        omega
    · rw [habs, hblm]
      push_cast
      omega

/-- `BigInt::to_f64` always succeeds, saturating on out-of-range input. -/
lemma to_f64_sat (a : ℤ) (h : 2 ^ 1024 ≤ a.natAbs) :
    to_f64 a = some (.inf (decide (a < 0))) := by
  rw [to_f64, bigToF64_sat a h]

/-- The bit encoding of a positive float of magnitude below `2^971` stays
well below the encoding of infinity. -/
lemma dyBits_bounds (m e : ℤ) (hm : 0 < m) (hE : (bitLen m.natAbs : ℤ) - 1 + e ≤ 970) :
    0 ≤ dyBits m e ∧ dyBits m e < 1994 * 2 ^ 52 := by
  have hne : m.natAbs ≠ 0 := by
    intro h0
    have := Int.natAbs_eq_zero.mp h0
    omega
  set n := m.natAbs with hn
  set bl := bitLen n with hbl
  have hlow : 2 ^ (bl - 1) ≤ n := (bitLen_spec n hne).1
  have hhigh : n < 2 ^ bl := (bitLen_spec n hne).2
  have hbl1 : 1 ≤ bl := bitLen_pos n hne
  have hshz_nonneg : ∀ k : ℤ, 0 ≤ shz n k := by
    intro k
    rw [shz]
    split <;> positivity
  rw [dyBits]
  by_cases hsub : (bl : ℤ) - 1 + e < -1022
  · rw [if_pos hsub]
    refine ⟨hshz_nonneg _, ?_⟩
    have hb53 : shz n (e + 1074) < 2 ^ 53 := by
      rw [shz]
      split
      · -- left shift: n * 2^(e+1074) with bl + e + 1074 ≤ 53
        rename_i hk
        have hexp : bl + (e + 1074).toNat ≤ 53 := by omega
        push_cast
        have : (n : ℤ) * 2 ^ (e + 1074).toNat < 2 ^ (bl + (e + 1074).toNat) := by
          rw [pow_add]
          have hcast : (n : ℤ) < 2 ^ bl := by exact_mod_cast hhigh
          have hp : (0:ℤ) < 2 ^ (e + 1074).toNat := by positivity
          exact mul_lt_mul_of_pos_right hcast hp
        calc (n : ℤ) * 2 ^ (e + 1074).toNat < 2 ^ (bl + (e + 1074).toNat) := this
        _ ≤ 2 ^ 53 := by
          have := pow_le_pow_right₀ (by omega : (1:ℤ) ≤ 2) hexp
          exact_mod_cast this
      · -- right shift: division only shrinks
        have : (n / 2 ^ (-(e + 1074)).toNat : ℕ) ≤ n := Nat.div_le_self _ _
        have h53 : n < 2 ^ 53 ∨ True := Or.inr trivial
        -- n / 2^k < 2^53 because bl ≤ 53 + k
        rename_i hk
        have hk' : ¬(0 ≤ e + 1074) := hk
        have hdiv : (n / 2 ^ (-(e + 1074)).toNat : ℕ) < 2 ^ 53 := by
          rw [Nat.div_lt_iff_lt_mul (Nat.pos_pow_of_pos _ (by omega))]
          calc n < 2 ^ bl := hhigh
          _ ≤ 2 ^ (53 + (-(e + 1074)).toNat) := Nat.pow_le_pow_right (by omega) (by omega)
          _ = 2 ^ 53 * 2 ^ (-(e + 1074)).toNat := pow_add 2 53 _
        exact_mod_cast hdiv
    calc shz n (e + 1074) < 2 ^ 53 := hb53
    _ ≤ 1994 * 2 ^ 52 := by norm_num
  · rw [if_neg hsub]
    have hx_nonneg : 0 ≤ shz n (53 - (bl : ℤ)) := hshz_nonneg _
    have hx_lt : shz n (53 - (bl : ℤ)) < 2 ^ 53 := by
      rw [shz]
      split
      · rename_i hk
        have hble : bl ≤ 53 := by omega
        have hexp : bl + (53 - (bl : ℤ)).toNat ≤ 53 := by omega
        push_cast
        have hcast : (n : ℤ) < 2 ^ bl := by exact_mod_cast hhigh
        have : (n : ℤ) * 2 ^ (53 - (bl : ℤ)).toNat < 2 ^ (bl + (53 - (bl : ℤ)).toNat) := by
          rw [pow_add]
          have hp : (0:ℤ) < 2 ^ (53 - (bl : ℤ)).toNat := by positivity
          exact mul_lt_mul_of_pos_right hcast hp
        calc (n : ℤ) * 2 ^ (53 - (bl : ℤ)).toNat < 2 ^ (bl + (53 - (bl : ℤ)).toNat) := this
        _ ≤ 2 ^ 53 := by
          have := pow_le_pow_right₀ (by omega : (1:ℤ) ≤ 2) hexp
          exact_mod_cast this
      · rename_i hk
        have hdiv : (n / 2 ^ (-(53 - (bl : ℤ))).toNat : ℕ) < 2 ^ 53 := by
          rw [Nat.div_lt_iff_lt_mul (Nat.pos_pow_of_pos _ (by omega))]
          calc n < 2 ^ bl := hhigh
          _ ≤ 2 ^ (53 + (-(53 - (bl : ℤ))).toNat) := Nat.pow_le_pow_right (by omega) (by omega)
          _ = 2 ^ 53 * 2 ^ (-(53 - (bl : ℤ))).toNat := pow_add 2 53 _
        exact_mod_cast hdiv
    constructor
    · have h1 : (1:ℤ) ≤ ((bl : ℤ) - 1 + e) + 1023 := by omega
      nlinarith [hx_nonneg]
    · have h2 : ((bl : ℤ) - 1 + e) + 1023 ≤ 1993 := by omega
      nlinarith [hx_lt]

/-- The ULP distance of any float of magnitude below `2^971` from either
infinity (or from NaN) exceeds 2. -/
lemma ulps_inf_far (s : Bool) (m e : ℤ) (hE : (bitLen m.natAbs : ℤ) - 1 + e ≤ 970) :
    ¬(|F64.ulps (.inf s) (.finite m e)| ≤ 2) := by
  have hbound : |F64.ord (.finite m e)| < 1994 * 2 ^ 52 := by
    rw [F64.ord]
    rcases lt_trichotomy m 0 with hneg | h0 | hpos
    · rw [if_neg (by omega), if_neg (by omega)]
      have := dyBits_bounds (-m) e (by omega) (by rwa [Int.natAbs_neg])
      rw [abs_neg]
      rw [abs_of_nonneg this.1]
      exact this.2
    · subst h0
      norm_num
    · rw [if_neg (by omega), if_pos hpos]
      have := dyBits_bounds m e hpos hE
      rw [abs_of_nonneg this.1]
      exact this.2
  intro hcon
  rw [abs_le] at hcon
  rw [abs_lt] at hbound
  rw [F64.ulps] at hcon
  have e52 : (1994 : ℤ) * 2 ^ 52 = 8980177656976769024 := by norm_num
  rw [e52] at hbound
  cases s
  · have hio : F64.ord (.inf false) = 9218868437227405312 := by
      rw [F64.ord]
      norm_num
    rw [hio] at hcon
    omega
  · have hio : F64.ord (.inf true) = -9218868437227405312 := by
      rw [F64.ord]
      norm_num
    rw [hio] at hcon
    omega

/-- Collecting a list through an `Except`-valued conversion succeeds in
order when every element satisfies the guard. -/
lemma mapM_except_ok (f : ℤ → Except ℤ ℕ) (g : ℤ → ℕ) (p : ℤ → Bool)
    (hf : ∀ c, p c = true → f c = .ok (g c)) :
    ∀ cs : List ℤ, (∀ c ∈ cs, p c = true) → cs.mapM f = .ok (cs.map g) := by
  intro cs
  induction cs with
  | nil => intro _; rfl
  | cons c cs ih =>
    intro hall
    rw [List.mapM_cons, hf c (hall c (by simp)), List.map_cons]
    have hrec := ih fun x hx => hall x (by simp [hx])
    rw [hrec]
    rfl

/-- Collecting stops at the first failing element: whatever follows it, the
result is the error of that first failure and no partial list. -/
lemma mapM_except_error (f : ℤ → Except ℤ ℕ) (g : ℤ → ℕ) (p : ℤ → Bool)
    (hf : ∀ c, p c = true → f c = .ok (g c)) (bad : ℤ) (hbad : f bad = .error bad) :
    ∀ (pre rest : List ℤ), (∀ c ∈ pre, p c = true) →
      (pre ++ bad :: rest).mapM f = .error bad := by
  intro pre
  induction pre with
  | nil =>
    intro rest _
    rw [List.nil_append, List.mapM_cons, hbad]
    rfl
  | cons c cs ih =>
    intro rest hall
    rw [List.cons_append, List.mapM_cons, hf c (hall c (by simp))]
    rw [ih rest fun x hx => hall x (by simp [hx])]
    rfl

/-! ## Claims -/

/-- C1: the chain comparisons are claimed to check every element against
the true running value.  The code instead resets the `try_fold`
accumulator to the placeholder `Int(0)` after every successful step, so
`less_than(1, [3, 2])` — which the adjacent-pairwise semantics (and the
spec's own test) require to be false — evaluates to true: after `1 < 3`
the accumulator is `0`, and `0 < 2` succeeds.  The spec-side
`chainPairwise` fold confirms the intended semantics yields false. -/
theorem c1_cmp_resets_accumulator :
    less_than (.Int 1) [.Int 2, .Int 3] = true ∧
    less_than (.Int 1) [.Int 3, .Int 2] = true ∧
    chainPairwise NumberValue.ltB (.Int 1) [.Int 2, .Int 3] = true ∧
    chainPairwise NumberValue.ltB (.Int 1) [.Int 3, .Int 2] = false := by
  refine ⟨by decide, by decide, by decide, by decide⟩

/-- C2: `divide(x, [0])` is claimed to surface an `ArithmeticFailure`
error for every integer `x`.  The code folds with the panicking Rust
`i64` division and has no error channel at all (`div` returns a bare
`NumberValue`): the division by the integer zero panics, modelled here by
the fold producing `none` for every `x`. -/
theorem c2_integer_div_by_zero_panics (x : ℤ) : div (.Int x) [.Int 0] = none := by
  have h : nvDiv (.Int x) (.Int 0) = none := by
    rw [nvDiv, arith, i64Div]
    rw [if_pos rfl]
    rfl
  rw [div, List.foldlM_cons, h]
  rfl

/-- C5: the dispatcher realises the spec's promotion matrix — for every
pair of tower values and every trio of (non-panicking) operator
implementations, the result variant is `promoteKind` of the operand
variants. -/
theorem c5_arith_promotion (a b : NumberValue) (fi : ℤ → ℤ → Option ℤ)
    (ff : F64 → F64 → F64) (fb : ℤ → ℤ → Option ℤ)
    (hi : ∀ x y, (fi x y).isSome = true) (hb : ∀ x y, (fb x y).isSome = true) :
    (arith a b fi ff fb).map NumberValue.kind = some (promoteKind a.kind b.kind) := by
  cases a with
  | Int l =>
    cases b with
    | Int r =>
      obtain ⟨v, hv⟩ := Option.isSome_iff_exists.mp (hi l r)
      simp [arith, hv, NumberValue.kind, promoteKind]
    | Float r => simp [arith, NumberValue.kind, promoteKind]
    | Big r =>
      obtain ⟨v, hv⟩ := Option.isSome_iff_exists.mp (hb l r)
      simp [arith, hv, NumberValue.kind, promoteKind]
  | Float l =>
    cases b with
    | Int r => simp [arith, NumberValue.kind, promoteKind]
    | Float r => simp [arith, NumberValue.kind, promoteKind]
    | Big r => simp [arith, to_f64, NumberValue.kind, promoteKind]
  | Big l =>
    cases b with
    | Int r =>
      obtain ⟨v, hv⟩ := Option.isSome_iff_exists.mp (hb l r)
      simp [arith, hv, NumberValue.kind, promoteKind]
    | Float r => simp [arith, to_f64, NumberValue.kind, promoteKind]
    | Big r =>
      obtain ⟨v, hv⟩ := Option.isSome_iff_exists.mp (hb l r)
      simp [arith, hv, NumberValue.kind, promoteKind]

/-- C5 witness: the dispatcher applied to `Int 1` and `Big 2` with total
operators produces a `Big`. -/
theorem c5_arith_promotion_witness :
    (arith (.Int 1) (.Big 2) (fun x y => some (x + y)) F64.add fun x y => some (x + y)).map
      NumberValue.kind = some (promoteKind (NumberValue.Int 1).kind (NumberValue.Big 2).kind) :=
  c5_arith_promotion (.Int 1) (.Big 2) _ F64.add _ (fun _ _ => rfl) fun _ _ => rfl

/-- C6: `coerce_integer` is claimed to narrow exactly the finite floats
inside `[MIN_FIXNUM, MAX_FIXNUM]` to `Int`.  The code compares against
`MAX_FIXNUM as f64`, and that conversion rounds `2^55 - 1` up to `2^55`,
so the float `2^55` — outside the fixnum range — passes the guard and is
returned as `Int(2^55)`, violating the fixnum invariant instead of going
to `Big`.  The in-range behaviour (`Float(5.0) ↦ Int(5)`, fixnum-sized
`Big ↦ Int`, `Int` unchanged) is as claimed. -/
theorem c6_coerce_integer_boundary :
    i64ToF64 MAX_FIXNUM = .finite (2 ^ 53) 2 ∧
    coerce_integer (.Float (.finite 1 55)) = .Int (2 ^ 55) ∧
    MAX_FIXNUM < 2 ^ 55 ∧
    coerce_integer (.Float (.finite 5 0)) = .Int 5 ∧
    coerce_integer (.Big 7) = .Int 7 ∧
    coerce_integer (.Int 3) = .Int 3 := by
  refine ⟨by decide, by decide, by decide, by decide, by decide, by decide⟩

/-- C8: `max`/`min` are left folds of `max_val`/`min_val`, and on an exact
tie (`partial_cmp` returns `Equal`) the later operand replaces the running
extreme, because the running extreme is kept only on a strict comparison.
The spec's own examples evaluate as claimed (the float literals are the
binary64 values of 1.0, 2.1 and 1.1). -/
theorem c8_max_min_tiebreak :
    (∀ x y, nvPartialCmp x y = some .eq → max_val x y = y ∧ min_val x y = y) ∧
    max (.Float (.finite 1 0)) [.Float (.finite 4728779608739021 (-51)),
      .Float (.finite 4953959590107546 (-52)), .Float (.finite 1 0)]
      = .Float (.finite 4728779608739021 (-51)) ∧
    max (.Int 1) [.Int 1] = .Int 1 ∧
    min (.Float (.finite 4953959590107546 (-52))) [.Float (.finite 1 0),
      .Float (.finite 4728779608739021 (-51)), .Float (.finite 1 0)]
      = .Float (.finite 1 0) := by
  refine ⟨?_, by decide, by decide, by decide⟩
  intro x y h
  constructor
  · rw [max_val, NumberValue.gtB, h]
    rfl
  · rw [min_val, NumberValue.ltB, h]
    rfl

/-- C8 witness: on the exact tie `max(1, [1])` the tie-break lemma applies
and the later operand is selected. -/
theorem c8_max_min_tiebreak_witness :
    nvPartialCmp (.Int 1) (.Int 1) = some .eq ∧ max_val (.Int 1) (.Int 1) = .Int 1 :=
  ⟨by decide, (c8_max_min_tiebreak.1 (.Int 1) (.Int 1) (by decide)).1⟩

/-- C9: `string` converts its integers to validated Unicode scalars in
order and concatenates, failing with the first invalid code point's
error and no partial text; `unibyte_string` does the same over the byte
range `[0, 255]`. -/
theorem c9_text_constructors :
    (∀ cs : List ℤ, (∀ c ∈ cs, isScalar c = true) → string cs = .ok (cs.map Int.toNat)) ∧
    (∀ (pre : List ℤ) (bad : ℤ) (rest : List ℤ), isScalar bad = false →
      (∀ c ∈ pre, isScalar c = true) → string (pre ++ bad :: rest) = .error bad) ∧
    (∀ bs : List ℤ, (∀ b ∈ bs, decide (0 ≤ b ∧ b ≤ 255) = true) →
      unibyte_string bs = .ok (bs.map Int.toNat)) ∧
    (∀ (pre : List ℤ) (bad : ℤ) (rest : List ℤ), decide (0 ≤ bad ∧ bad ≤ 255) = false →
      (∀ b ∈ pre, decide (0 ≤ b ∧ b ≤ 255) = true) →
      unibyte_string (pre ++ bad :: rest) = .error bad) := by
  have hchar : ∀ c : ℤ, isScalar c = true → int_to_char c = .ok c.toNat := by
    intro c hc
    rw [int_to_char, if_pos hc]
  have hbyte : ∀ b : ℤ, decide (0 ≤ b ∧ b ≤ 255) = true → u8_try_from b = .ok b.toNat := by
    intro b hb
    rw [u8_try_from, if_pos (of_decide_eq_true hb)]
  refine ⟨?_, ?_, ?_, ?_⟩
  · exact mapM_except_ok int_to_char Int.toNat isScalar hchar
  · intro pre bad rest hbad hall
    refine mapM_except_error int_to_char Int.toNat isScalar hchar bad ?_ pre rest hall
    rw [int_to_char, if_neg (by rw [hbad]; exact Bool.false_ne_true)]
  · exact mapM_except_ok u8_try_from Int.toNat (fun b => decide (0 ≤ b ∧ b ≤ 255)) hbyte
  · intro pre bad rest hbad hall
    refine mapM_except_error u8_try_from Int.toNat (fun b => decide (0 ≤ b ∧ b ≤ 255))
      hbyte bad ?_ pre rest hall
    rw [u8_try_from, if_neg (of_decide_eq_false hbad)]

/-- C9 witness: the spec's four examples, obtained from the theorem. -/
theorem c9_text_constructors_witness :
    string [65, 66, 67] = .ok [65, 66, 67] ∧
    string [-1] = .error (-1) ∧
    unibyte_string [258, 255] = .error 258 ∧
    unibyte_string [254, 255] = .ok [254, 255] :=
  ⟨(c9_text_constructors.1 [65, 66, 67] (by decide)).trans rfl,
   c9_text_constructors.2.1 [] (-1) [] (by decide) (by decide),
   c9_text_constructors.2.2.2 [] 258 [255] (by decide) (by decide),
   (c9_text_constructors.2.2.1 [254, 255] (by decide)).trans rfl⟩

/-- C10: for a nonzero divisor the two-argument `mod` (on `Int` operands)
and `%` are claimed to return the truncated-division remainder for every
machine-integer pair.  That holds — sign following the dividend and the
two operations agreeing — except at the single overflow pair
`(i64::MIN, -1)`, where Rust's `%` (and hence both defuns) panics even
though the mathematical truncated remainder is 0; the claim is amended to
exclude that pair. -/
theorem c10_mod_rem_truncated (x y : ℤ) (hy : y ≠ 0) (hov : ¬(x = -(2 ^ 63) ∧ y = -1)) :
    remainder x y = some (Int.tmod x y) ∧
    modulo (.Int x) (.Int y) = some (.Int (Int.tmod x y)) ∧
    (0 ≤ x → 0 ≤ Int.tmod x y) ∧
    (x ≤ 0 → Int.tmod x y ≤ 0) ∧
    |Int.tmod x y| < |y| := by
  have hrem : i64Rem x y = some (Int.tmod x y) := by
    rw [i64Rem, if_neg hy, if_neg hov]
  refine ⟨hrem, ?_, fun hx => Int.tmod_nonneg y hx, fun hx => tmod_nonpos x y hx,
    abs_tmod_lt x y hy⟩
  rw [modulo, nvRem, arith, hrem]
  rfl

/-- C10 witness: `mod(-7, 3)` and `%(-7, 3)` both yield `-1`, the
truncated remainder with the dividend's sign. -/
theorem c10_mod_rem_truncated_witness :
    remainder (-7) 3 = some (-1) ∧ modulo (.Int (-7)) (.Int 3) = some (.Int (-1)) :=
  ⟨((c10_mod_rem_truncated (-7) 3 (by decide) (by decide)).1).trans (by decide),
   ((c10_mod_rem_truncated (-7) 3 (by decide) (by decide)).2.1).trans (by decide)⟩

/-- C10 counterexample: at `x = i64::MIN`, `y = -1` the claim fails on the
code — both operations panic (Rust remainder overflow), returning no
value, although the truncated-division remainder the claim promises is
defined and equal to 0. -/
theorem c10_rem_overflow_panics :
    remainder (-(2 ^ 63)) (-1) = none ∧
    modulo (.Int (-(2 ^ 63))) (.Int (-1)) = none ∧
    Int.tmod (-(2 ^ 63)) (-1) = 0 := by
  refine ⟨by decide, by decide, by decide⟩

/-- float_cmp considers a signed infinity approximately unequal to every
finite float of magnitude below `2^971` (every branch of `approx_eq`
fails: IEEE equality, the epsilon test, and the 2-ULP test). -/
lemma approx_eq_inf_finite (s : Bool) (my ey : ℤ)
    (h2 : (bitLen my.natAbs : ℤ) - 1 + ey ≤ 970) :
    (F64.inf s).approx_eq (.finite my ey) = false := by
  rw [F64.approx_eq]
  have h1 : (F64.inf s).ieeeEq (.finite my ey) = false := by cases s <;> rfl
  have h2' : (F64.abs ((F64.inf s).sub (.finite my ey))).leB f64EPSILON = false := by
    cases s <;> rfl
  have h3 : decide (|F64.ulps (.inf s) (.finite my ey)| ≤ 2) = false :=
    decide_eq_false (ulps_inf_far s my ey h2)
  rw [h1, h2', h3]
  rfl

/-- C4 counterexample: the claim, as stated, fails at `Float(1.0)` against
`Big(2^1100)` — the required conversion is not representable as a finite
float (it saturates to infinity), yet the ordering query returns a
defined order (`Less`), and `less_than` consequently yields true rather
than false. -/
theorem c4_big_float_order_defined :
    to_f64 (((2 ^ 1100 : ℕ) : ℤ)) = some (.inf false) ∧
    nvPartialCmp (.Float (.finite 1 0)) (.Big (((2 ^ 1100 : ℕ) : ℤ))) = some .lt ∧
    less_than (.Float (.finite 1 0)) [.Big (((2 ^ 1100 : ℕ) : ℤ))] = true := by
  refine ⟨by decide, by decide, by decide⟩

/-- C4 (amended): when the `Big`-to-`Float` conversion needed for a
cross-variant comparison is not representable as a finite float, num-bigint
saturates it to a signed infinity and the query returns the defined order
against that infinity; an ordered comparison therefore yields the order of
the signs rather than false.  The pair is incomparable exactly when the
`Float` operand is NaN, and no crash or error is raised in any case. -/
theorem c4_big_float_order_saturates (m e r : ℤ) (h : 2 ^ 1024 ≤ r.natAbs) :
    nvPartialCmp (.Float (.finite m e)) (.Big r) = some (if r < 0 then .gt else .lt) ∧
    nvPartialCmp (.Big r) (.Float (.finite m e)) = some (if r < 0 then .lt else .gt) ∧
    less_than (.Float (.finite m e)) [.Big r] = decide (0 ≤ r) ∧
    nvPartialCmp (.Float .nan) (.Big r) = none ∧
    nvPartialCmp (.Big r) (.Float .nan) = none := by
  have hsat := to_f64_sat r h
  have hne : r ≠ 0 := by
    intro h0
    rw [h0] at h
    simp at h
  have hcmp : nvPartialCmp (.Float (.finite m e)) (.Big r)
      = some (if r < 0 then .gt else .lt) := by
    simp only [nvPartialCmp, hsat]
    rcases lt_or_ge r 0 with hr | hr
    · simp [hr, F64.pcmp]
    · have : ¬(r < 0) := by omega
      simp [this, F64.pcmp]
  refine ⟨hcmp, ?_, ?_, rfl, ?_⟩
  · simp only [nvPartialCmp, hsat, Option.bind_some]
    rcases lt_or_ge r 0 with hr | hr
    · simp [hr, F64.pcmp]
    · have : ¬(r < 0) := by omega
      simp [this, F64.pcmp]
  · rw [less_than, cmp, List.foldlM_cons, NumberValue.ltB, hcmp]
    rcases lt_or_ge r 0 with hr | hr
    · have h1 : ¬(0 ≤ r) := by omega
      simp [hr, h1]
      rfl
    · have h1 : ¬(r < 0) := by omega
      simp [h1, hr]
      rfl
  · simp only [nvPartialCmp, hsat, Option.bind_some]
    cases hb : decide (r < 0) <;> rfl

/-- C4 witness: at `Float(1.0)` and `Big(2^1100)` the saturating order is
defined and `less_than` returns true. -/
theorem c4_big_float_order_saturates_witness :
    2 ^ 1024 ≤ (((2 ^ 1100 : ℕ) : ℤ)).natAbs ∧
    less_than (.Float (.finite 1 0)) [.Big (((2 ^ 1100 : ℕ) : ℤ))]
      = decide (0 ≤ ((2 ^ 1100 : ℕ) : ℤ)) :=
  ⟨by decide, (c4_big_float_order_saturates 1 0 ((2 ^ 1100 : ℕ) : ℤ) (by decide)).2.2.1⟩

/-- C7: in the `Float`–`Big` pairings (either order) the dispatcher's
big-to-float conversion always succeeds — the `unwrap` error branch is
unreachable, the operation never aborts, and for a magnitude not
representable as a finite float the conversion is the defined saturation
to the signed infinity, which is then passed to the float operator. -/
theorem c7_float_big_conversion_total (l : F64) (r : ℤ) (fi : ℤ → ℤ → Option ℤ)
    (ff : F64 → F64 → F64) (fb : ℤ → ℤ → Option ℤ) :
    (arith (.Float l) (.Big r) fi ff fb).isSome = true ∧
    (arith (.Big r) (.Float l) fi ff fb).isSome = true ∧
    (2 ^ 1024 ≤ r.natAbs →
      arith (.Float l) (.Big r) fi ff fb = some (.Float (ff l (.inf (decide (r < 0))))) ∧
      arith (.Big r) (.Float l) fi ff fb = some (.Float (ff (.inf (decide (r < 0))) l))) := by
  refine ⟨rfl, rfl, fun h => ?_⟩
  have hsat := to_f64_sat r h
  constructor
  · simp only [arith, hsat]
    rfl
  · simp only [arith, hsat]
    rfl

/-- C7 witness: adding `Float(1.0)` to `Big(2^1100)` goes through the
saturated infinity and does not abort. -/
theorem c7_float_big_conversion_total_witness :
    2 ^ 1024 ≤ (((2 ^ 1100 : ℕ) : ℤ)).natAbs ∧
    arith (.Float (.finite 1 0)) (.Big (((2 ^ 1100 : ℕ) : ℤ))) (fun _ _ => none) F64.add
      (fun _ _ => none)
      = some (.Float (F64.add (.finite 1 0) (.inf (decide (((2 ^ 1100 : ℕ) : ℤ) < 0))))) :=
  ⟨by decide, (c7_float_big_conversion_total (.finite 1 0) ((2 ^ 1100 : ℕ) : ℤ)
    (fun _ _ => none) F64.add (fun _ _ => none)).2.2 (by decide) |>.1⟩

/-- C3 counterexample: the claim, as stated, fails — the comparison of a
`Float` against a native integer is bit-exact in the code, not 2-ULP
tolerant: `Float(1 + 2^-52) == 1i64` is false although the two values are
within the code's own `(EPSILON, 2 ULP)` tolerance (and the symmetric
`Int`-against-`f64` comparison is bit-exact too). -/
theorem c3_float_int_comparison_bitexact :
    num_eq_i64 (.Float (.finite (2 ^ 52 + 1) (-52))) 1 = false ∧
    (F64.finite (2 ^ 52 + 1) (-52)).approx_eq (i64ToF64 1) = true ∧
    num_eq_f64 (.Int 1) (.finite (2 ^ 52 + 1) (-52)) = false ∧
    (i64ToF64 1).approx_eq (.finite (2 ^ 52 + 1) (-52)) = true := by
  refine ⟨by decide, by decide, by decide, by decide⟩

/-- C3 (amended): equality with no `Float` on either side is exact.  The
`Float`-vs-`f64`, `Big`-vs-`f64` and `Float`-vs-`BigInt` comparisons use
the 2-ULP/epsilon tolerance, but `Float`-vs-`i64` and `Int`-vs-`f64` are
bit-exact value comparisons (the claim's counterexample).  A `Big` whose
float conversion is not finite saturates to a signed infinity and — with
no error raised — compares unequal to every float of magnitude below
`2^971`, though it does compare equal to an infinity of its own sign. -/
theorem c3_equality_semantics :
    (∀ n k : ℤ, num_eq_i64 (.Int n) k = decide (n = k)) ∧
    (∀ n o : ℤ, num_eq_big (.Int n) o = decide (n = o)) ∧
    (∀ n k : ℤ, num_eq_i64 (.Big n) k = decide (n = k)) ∧
    (∀ n o : ℤ, num_eq_big (.Big n) o = decide (n = o)) ∧
    (∀ m e k : ℤ, k.natAbs < 2 ^ 53 →
      num_eq_i64 (.Float (.finite m e)) k = (F64.finite m e).ieeeEq (.finite k 0)) ∧
    (∀ (x : F64) (k : ℤ), k.natAbs < 2 ^ 53 →
      num_eq_f64 (.Int k) x = (F64.finite k 0).ieeeEq x) ∧
    num_eq_f64 (.Float (.finite (2 ^ 52 + 1) (-52))) (.finite 1 0) = true ∧
    (∀ r my ey : ℤ, 2 ^ 1024 ≤ r.natAbs → (bitLen my.natAbs : ℤ) - 1 + ey ≤ 970 →
      num_eq_f64 (.Big r) (.finite my ey) = false ∧
      num_eq_big (.Float (.finite my ey)) r = false) ∧
    (∀ r : ℤ, 2 ^ 1024 ≤ r.natAbs →
      num_eq_f64 (.Big r) (.inf (decide (r < 0))) = true) := by
  refine ⟨?_, ?_, ?_, ?_, ?_, ?_, by decide, ?_, ?_⟩
  · intro n k
    by_cases h : n = k <;> simp [num_eq_i64, h]
  · intro n o
    by_cases h : n = o <;> simp [num_eq_big, h]
  · intro n k
    by_cases h : n = k <;> simp [num_eq_i64, h]
  · intro n o
    by_cases h : n = o <;> simp [num_eq_big, h]
  · intro m e k hk
    simp only [num_eq_i64]
    rw [i64ToF64_small k hk]
  · intro x k hk
    simp only [num_eq_f64]
    rw [i64ToF64_small k hk]
  · intro r my ey h1 h2
    have hsat := to_f64_sat r h1
    constructor
    · simp only [num_eq_f64, hsat]
      exact approx_eq_inf_finite _ my ey h2
    · simp only [num_eq_big, hsat]
      exact approx_eq_inf_finite _ my ey h2
  · intro r h1
    have hsat := to_f64_sat r h1
    simp only [num_eq_f64, hsat]
    rw [F64.approx_eq]
    have : (F64.inf (decide (r < 0))).ieeeEq (.inf (decide (r < 0))) = true := by
      cases hb : decide (r < 0) <;> rfl
    rw [this]
    rfl

/-- C3 witness: the exact `Float`-vs-`i64` branch at equal values, and a
saturated `Big` comparing unequal to `1.0` with no error. -/
theorem c3_equality_semantics_witness :
    ((3 : ℤ).natAbs < 2 ^ 53 ∧
      num_eq_i64 (.Float (.finite 3 0)) 3 = (F64.finite 3 0).ieeeEq (.finite 3 0)) ∧
    (2 ^ 1024 ≤ (((2 ^ 1100 : ℕ) : ℤ)).natAbs ∧
      num_eq_f64 (.Big (((2 ^ 1100 : ℕ) : ℤ))) (.finite 1 0) = false) :=
  ⟨⟨by decide, c3_equality_semantics.2.2.2.2.1 3 0 3 (by decide)⟩,
   ⟨by decide, (c3_equality_semantics.2.2.2.2.2.2.2.1 ((2 ^ 1100 : ℕ) : ℤ) 1 0
     (by decide) (by decide)).1⟩⟩

end Rune


